import Mathlib

/-!
# Verification of the titanium-rose cryptographic core

A shallow embedding, in Lean 4, of the cryptographic engine of the
titanium-rose repository: the fixed-group ElGamal key delivery
(`src/crypto/elgamal.rs`), the SHA-256 hash engine (`src/crypto/sha256.rs`),
HMAC-SHA256 (`src/crypto/hmac.rs`), and the authenticated CBC cipher with
PKCS#7 padding (`src/crypto/mod.rs`).  Machine integers (`U2048`, `u32`,
`u8`) are embedded as `Nat` with explicit reductions where the source wraps;
byte strings are `List Nat` whose entries are below 256; fallible operations
return `Option`, and operations whose Rust counterpart can reach a panicking
slice index return a dedicated result type that has a `panicked` outcome.
-/

set_option maxRecDepth 100000

namespace TitaniumRose

namespace ElGamal

/-- The subgroup order `Q` of `src/crypto/elgamal.rs`, a 2047-bit constant
(`Int::from_be_hex(...)`). -/
def Q : ℕ := 0x7f10d590db04c98b5b88dc544cf27fc758780dcd652763eafdffd0962153671e773bc4bed8214591be5fe640896f211a1a54457bdced391bfde8942f2a36904b8853bf65ecf849e75936bb9f37a972ff882bac35f632a24c31d2aba339e50b9aeb89bdd8db873fa3365907ca09042d3945f15c9f29c8df54cecbb2b98c0989ef315a32c2945c86fdec4f06374d337fbf4f81711c78233bcde92802a3064203c53094feeb8fc31cef66af51ef1d50ff2ad6c89afd7d7781e549eedeebd3afa8cba28eeee98cbb156ddbb9e30eb5227f5e7ac86c8a26301bca3ec15d9ba1e71f638227f00bcc7aa4323dafbb1b64ded53c20a9127be8cc5dfa80c10483dbde0ead

/-- The group modulus `P = Q.shl(1).saturating_add(&Int::ONE)`.  Since
`2 * Q + 1 < 2 ^ 2048` the saturating addition does not saturate, so the
value is exactly `2 * Q + 1`. -/
def P : ℕ := 2 * Q + 1

/-- The generator `G` of `src/crypto/elgamal.rs`. -/
def G : ℕ := 0x5a98f52c5d61c4047a68a9a2ca5d3ca087640121de5fb00d1e92d660c3db2f0b76feb1d37679ef9215541986d9248aa2a2f876f2e66a48fb8c1c4948b0a259d8f3d75ac7ab352fe54a30e5889c56fad6005b037f2b96437154a44da609ccf975385350355e91f0d9223718376e0ac7ff858aa50608a21344ccebcce5707f2e32ecd6faeeb54cb45c8a7efd7c7df16a76c947ac44371f33a54b03636ab30915a43f3697e100d6329bff860b4ea7f5c54eae0c79a1af573085070ed243335dd523bb21653039f0a98db73e7b17f98936fbe8dbda998267c03586e669b83308e4183b877ce314b57a4e590795becbfa94e69cc5d75981e66df5d2f65ecb4a528d9c

/-- `mul` of `src/crypto/elgamal.rs`: the double-width (4096-bit) product
`lhs.mul(rhs)` reduced by `wrapping_rem(&BIG_P)` and resized back to 2048
bits.  The remainder is below `P < 2 ^ 2048`, so the resize is lossless and
the function computes `lhs * rhs % P`. -/
def mul (lhs rhs : ℕ) : ℕ := lhs * rhs % P

/-- The loop body of `pow`: `fuel` remaining iterations, `i` the current bit
index, `result` and `a` the two mutable locals.  Each iteration computes
`multiplied = mul(&result, &a)`, conditionally assigns it to `result` when
bit `i` of the exponent is set, and squares `a`. -/
def seqNat {α : Sort u} (n : ℕ) (f : ℕ → α) : α :=
  Nat.casesOn n (f 0) (fun m => f (m + 1))

theorem seqNat_eq {α : Sort u} (n : ℕ) (f : ℕ → α) : seqNat n f = f n := by
  cases n <;> rfl

def powLoop (exp fuel : ℕ) : ℕ → ℕ → ℕ → ℕ :=
  Nat.rec (motive := fun _ => ℕ → ℕ → ℕ → ℕ)
    (fun _ result _ => result)
    (fun _ ih i result a =>
      seqNat (i + 1) (fun i2 =>
      seqNat (if exp.testBit i then mul result a else result) (fun r2 =>
      seqNat (mul a a) (fun a2 => ih i2 r2 a2))))
    fuel

theorem powLoop_zero (exp i result a : ℕ) : powLoop exp 0 i result a = result := rfl

theorem powLoop_succ (exp fuel i result a : ℕ) :
    powLoop exp (fuel + 1) i result a
      = powLoop exp fuel (i + 1) (if exp.testBit i then mul result a else result) (mul a a) := by
  have h : powLoop exp (fuel + 1) i result a
      = seqNat (i + 1) (fun i2 =>
        seqNat (if exp.testBit i then mul result a else result) (fun r2 =>
        seqNat (mul a a) (fun a2 => powLoop exp fuel i2 r2 a2))) := rfl
  rw [h, seqNat_eq, seqNat_eq, seqNat_eq]

/-- `pow` of `src/crypto/elgamal.rs`: iterated squaring over every one of the
`Int::BITS = 2048` bit positions of the exponent. -/
def pow (base exp : ℕ) : ℕ := powLoop exp 2048 0 1 base

/-- `inv_pow` of `src/crypto/elgamal.rs`: `pow(base, &Q.checked_sub(exp).unwrap())`.
The `checked_sub` succeeds exactly when `exp ≤ Q`, which holds at every call
site (the exponent is a secret in `[1, Q-1]`); truncated `Nat` subtraction
agrees with it there. -/
def inv_pow (base exp : ℕ) : ℕ := pow base (Q - exp)

theorem Q_pos : 0 < Q := by decide

theorem one_lt_P : 1 < P := by
  have h := Q_pos
  simp only [P]
  omega

theorem P_pos : 0 < P := Nat.lt_trans Nat.zero_lt_one one_lt_P

theorem mul_lt (lhs rhs : ℕ) : mul lhs rhs < P := Nat.mod_lt _ P_pos

theorem powLoop_lt (exp : ℕ) :
    ∀ fuel i result a, result < P → powLoop exp fuel i result a < P := by
  intro fuel
  induction fuel with
  | zero => intro i result a h; exact h
  | succ n ih =>
      intro i result a h
      rw [powLoop_succ]
      apply ih
      split
      · exact mul_lt result a
      · exact h

theorem mod_two_pow_succ_low (e k : ℕ) :
    e % 2 ^ (k + 1) = e % 2 + 2 * (e / 2 % 2 ^ k) := by
  rw [pow_succ', Nat.mod_mul]

theorem powLoop_modEq (exp : ℕ) :
    ∀ fuel i result a,
      powLoop exp fuel i result a ≡ result * a ^ (exp / 2 ^ i % 2 ^ fuel) [MOD P] := by
  intro fuel
  induction fuel with
  | zero =>
      intro i result a
      simp only [powLoop_zero, Nat.pow_zero, Nat.mod_one, pow_zero, mul_one]
      rfl
  | succ n ih =>
      intro i result a
      rw [powLoop_succ]
      have hsplit : exp / 2 ^ i % 2 ^ (n + 1)
          = exp / 2 ^ i % 2 + 2 * (exp / 2 ^ (i + 1) % 2 ^ n) := by
        rw [mod_two_pow_succ_low, Nat.div_div_eq_div_mul, ← pow_succ]
      have hpow : a ^ (exp / 2 ^ i % 2 ^ (n + 1))
          = a ^ (exp / 2 ^ i % 2) * (a * a) ^ (exp / 2 ^ (i + 1) % 2 ^ n) := by
        rw [hsplit, pow_add, pow_mul, sq]
      have hbody : (if exp.testBit i then mul result a else result)
          ≡ result * a ^ (exp / 2 ^ i % 2) [MOD P] := by
        by_cases hbit : exp.testBit i
        · have h1 : exp / 2 ^ i % 2 = 1 := by
            have := Nat.testBit_to_div_mod (x := exp) (i := i)
            rw [hbit] at this
            exact of_decide_eq_true this.symm
          simp only [hbit, if_pos, h1, pow_one]
          exact (Nat.mod_modEq _ _)
        · have h0 : exp / 2 ^ i % 2 = 0 := by
            have := Nat.testBit_to_div_mod (x := exp) (i := i)
            rw [Bool.eq_false_iff.mpr hbit] at this
            have h2 := of_decide_eq_false this.symm
            omega
          simp only [hbit, if_neg, h0, pow_zero, mul_one]
          rfl
      calc powLoop exp n (i + 1) (if exp.testBit i then mul result a else result) (mul a a)
          ≡ (if exp.testBit i then mul result a else result) * (mul a a) ^ (exp / 2 ^ (i + 1) % 2 ^ n) [MOD P] := ih _ _ _
        _ ≡ (result * a ^ (exp / 2 ^ i % 2)) * (a * a) ^ (exp / 2 ^ (i + 1) % 2 ^ n) [MOD P] := by
            exact Nat.ModEq.mul hbody ((Nat.mod_modEq _ _).pow _)
        _ = result * a ^ (exp / 2 ^ i % 2 ^ (n + 1)) := by
            rw [hpow, mul_assoc]

/-- `pow` computes `base ^ exp % P` for every exponent representable in the
2048-bit integer type. -/
theorem pow_eq (base exp : ℕ) (hexp : exp < 2 ^ 2048) : pow base exp = base ^ exp % P := by
  have h1 := powLoop_modEq exp 2048 0 1 base
  have h2 := powLoop_lt exp 2048 0 1 base one_lt_P
  simp only [pow_zero, Nat.div_one, one_mul, Nat.mod_eq_of_lt hexp] at h1
  have h3 : powLoop exp 2048 0 1 base % P = powLoop exp 2048 0 1 base :=
    Nat.mod_eq_of_lt h2
  simpa [pow, Nat.ModEq, h3] using h1

/-- The constants of the repository satisfy the subgroup relation the design
relies on: the generator has order dividing `Q`, i.e. `pow G Q = 1`.
Verified by kernel computation of the ladder on the literal constants. -/
theorem g_powLadder_Q : pow G Q = 1 := by decide

theorem Q_lt_two_pow : Q < 2 ^ 2048 := by decide

theorem G_pow_Q_mod_P : G ^ Q % P = 1 := by
  rw [← pow_eq G Q Q_lt_two_pow]
  exact g_powLadder_Q


/-! ## Operation trace of the ladder

To state the constant-time property of `pow` we instrument the ladder with
an abstract operation trace: each iteration records the unconditional
multiply, the branchless conditional assignment, and the unconditional
squaring the source performs.  `powLoopT` computes the same result as
`powLoop` while recording the trace. -/

/-- The abstract operations one ladder iteration performs, in order:
`multiplied = mul(&result, &a)`, the mask-based `conditional_assign`, and
`a = mul(&a, &a)`. -/
inductive LadderOp where
  | mulModP
  | conditionalAssign
deriving DecidableEq

def powLoopT (exp fuel : ℕ) : ℕ → ℕ → ℕ → ℕ × List LadderOp :=
  Nat.rec (motive := fun _ => ℕ → ℕ → ℕ → ℕ × List LadderOp)
    (fun _ result _ => (result, []))
    (fun _ ih i result a =>
      let rest := ih (i + 1) (if exp.testBit i then mul result a else result) (mul a a)
      (rest.1, LadderOp.mulModP :: LadderOp.conditionalAssign :: LadderOp.mulModP :: rest.2))
    fuel

/-- `pow` together with its operation trace. -/
def powT (base exp : ℕ) : ℕ × List LadderOp := powLoopT exp 2048 0 1 base

theorem powLoopT_zero (exp i result a : ℕ) : powLoopT exp 0 i result a = (result, []) := rfl

theorem powLoopT_succ (exp fuel i result a : ℕ) :
    powLoopT exp (fuel + 1) i result a
      = ((powLoopT exp fuel (i + 1) (if exp.testBit i then mul result a else result) (mul a a)).1,
          LadderOp.mulModP :: LadderOp.conditionalAssign :: LadderOp.mulModP ::
            (powLoopT exp fuel (i + 1) (if exp.testBit i then mul result a else result) (mul a a)).2) := rfl

theorem powLoopT_fst (exp : ℕ) :
    ∀ fuel i result a, (powLoopT exp fuel i result a).1 = powLoop exp fuel i result a := by
  intro fuel
  induction fuel with
  | zero => intro i result a; rfl
  | succ n ih =>
      intro i result a
      rw [powLoopT_succ, powLoop_succ]
      exact ih _ _ _

theorem powLoopT_snd (exp : ℕ) :
    ∀ fuel i result a exp2 i2 result2 a2,
      (powLoopT exp fuel i result a).2 = (powLoopT exp2 fuel i2 result2 a2).2 := by
  intro fuel
  induction fuel with
  | zero => intro i result a exp2 i2 result2 a2; rfl
  | succ n ih =>
      intro i result a exp2 i2 result2 a2
      rw [powLoopT_succ, powLoopT_succ]
      simp only [List.cons.injEq, true_and]
      exact ih _ _ _ _ _ _ _

theorem powLoopT_snd_length (exp : ℕ) :
    ∀ fuel i result a, (powLoopT exp fuel i result a).2.length = 3 * fuel := by
  intro fuel
  induction fuel with
  | zero => intro i result a; rfl
  | succ n ih =>
      intro i result a
      rw [powLoopT_succ]
      simp only [List.length_cons, ih]
      omega

end ElGamal

/-! ## Byte-string utilities

Byte strings are `List ℕ` with entries below 256.  `beVal` is the value of a
big-endian byte string (`from_be_bytes`); `beBytes len n` is the fixed-width
big-endian encoding (`to_be_bytes`). -/

/-- Big-endian value of a byte string: `Uint::from_be_bytes` / `u32::from_be_bytes`. -/
def beVal (l : List ℕ) : ℕ := l.foldl (fun acc b => acc * 256 + b) 0

/-- Fixed-width big-endian byte encoding: `to_be_bytes` at width `len`. -/
def beBytes : ℕ → ℕ → List ℕ
  | 0, _ => []
  | len + 1, n => beBytes len (n / 256) ++ [n % 256]

theorem beBytes_length : ∀ len n, (beBytes len n).length = len := by
  intro len
  induction len with
  | zero => intro n; rfl
  | succ k ih => intro n; simp [beBytes, ih]

theorem beBytes_lt : ∀ len n, ∀ b ∈ beBytes len n, b < 256 := by
  intro len
  induction len with
  | zero => intro n b hb; simp [beBytes] at hb
  | succ k ih =>
      intro n b hb
      simp only [beBytes, List.mem_append, List.mem_singleton] at hb
      rcases hb with hb | hb
      · exact ih _ _ hb
      · subst hb; exact Nat.mod_lt _ (by norm_num)

theorem beVal_append_singleton (l : List ℕ) (b : ℕ) :
    beVal (l ++ [b]) = beVal l * 256 + b := by
  simp [beVal, List.foldl_append]

theorem beVal_lt : ∀ l : List ℕ, (∀ b ∈ l, b < 256) → beVal l < 256 ^ l.length := by
  intro l
  induction l using List.reverseRecOn with
  | nil => intro _; simp [beVal]
  | append_singleton xs x ih =>
      intro h
      have hxs : ∀ b ∈ xs, b < 256 := fun b hb => h b (List.mem_append_left _ hb)
      have hx : x < 256 := h x (List.mem_append_right _ (List.mem_singleton_self x))
      have h1 := ih hxs
      rw [beVal_append_singleton]
      simp only [List.length_append, List.length_singleton, pow_add, pow_one]
      calc beVal xs * 256 + x < beVal xs * 256 + 256 := by omega
        _ = (beVal xs + 1) * 256 := by ring
        _ ≤ 256 ^ xs.length * 256 := by
            have : beVal xs + 1 ≤ 256 ^ xs.length := h1
            exact Nat.mul_le_mul_right _ this

/-- Round-trip: re-encoding the value of a `len`-byte big-endian string gives
back the string. -/
theorem beBytes_beVal : ∀ l : List ℕ, (∀ b ∈ l, b < 256) →
    beBytes l.length (beVal l) = l := by
  intro l
  induction l using List.reverseRecOn with
  | nil => intro _; rfl
  | append_singleton xs x ih =>
      intro h
      have hxs : ∀ b ∈ xs, b < 256 := fun b hb => h b (List.mem_append_left _ hb)
      have hx : x < 256 := h x (List.mem_append_right _ (List.mem_singleton_self x))
      rw [beVal_append_singleton]
      simp only [List.length_append, List.length_singleton]
      show beBytes (xs.length + 1) (beVal xs * 256 + x) = xs ++ [x]
      simp only [beBytes]
      have hdiv : (beVal xs * 256 + x) / 256 = beVal xs := by
        rw [Nat.mul_comm, Nat.mul_add_div (by norm_num : (0:ℕ) < 256), Nat.div_eq_of_lt hx]
        omega
      have hmod : (beVal xs * 256 + x) % 256 = x := by
        rw [Nat.mul_comm, Nat.mul_add_mod]
        exact Nat.mod_eq_of_lt hx
      rw [hdiv, hmod, ih hxs]

/-! ## Chunking

`bytemuck::cast_slice` / `parse_blocks` view a byte vector as consecutive
fixed-size blocks.  `chunksOfSucc km1` splits a list into chunks of size
`km1 + 1` (the successor form makes termination structural in the length). -/

def chunksFuel (km1 : ℕ) : ℕ → List ℕ → List (List ℕ)
  | 0, _ => []
  | fuel + 1, l =>
      if l = [] then []
      else l.take (km1 + 1) :: chunksFuel km1 fuel (l.drop (km1 + 1))

/-- Split `l` into chunks of `km1 + 1` elements; the final chunk may be
shorter.  The fuel argument of `chunksFuel` only bounds the recursion depth
and is irrelevant once it is at least `l.length`. -/
def chunksOfSucc (km1 : ℕ) (l : List ℕ) : List (List ℕ) := chunksFuel km1 l.length l

theorem chunksFuel_congr (km1 : ℕ) :
    ∀ f f' (l : List ℕ), l.length ≤ f → l.length ≤ f' →
      chunksFuel km1 f l = chunksFuel km1 f' l := by
  intro f
  induction f with
  | zero =>
      intro f' l hf hf'
      have : l = [] := List.eq_nil_of_length_eq_zero (Nat.le_zero.mp hf)
      subst this
      cases f' <;> simp [chunksFuel]
  | succ n ih =>
      intro f' l hf hf'
      by_cases h : l = []
      · subst h
        cases f' <;> simp [chunksFuel]
      · have hlen : 0 < l.length := List.length_pos.mpr h
        cases f' with
        | zero => omega
        | succ m =>
            simp only [chunksFuel, if_neg h]
            congr 1
            apply ih
            · simp only [List.length_drop]; omega
            · simp only [List.length_drop]; omega

theorem chunksOfSucc_nil (km1 : ℕ) : chunksOfSucc km1 [] = [] := rfl

theorem chunksOfSucc_ne (km1 : ℕ) (l : List ℕ) (h : l ≠ []) :
    chunksOfSucc km1 l = l.take (km1 + 1) :: chunksOfSucc km1 (l.drop (km1 + 1)) := by
  have hlen : 0 < l.length := List.length_pos.mpr h
  obtain ⟨n, hn⟩ : ∃ n, l.length = n + 1 := ⟨l.length - 1, by omega⟩
  simp only [chunksOfSucc, hn, chunksFuel, if_neg h]
  congr 1
  apply chunksFuel_congr
  · simp only [List.length_drop]; omega
  · exact le_refl _

theorem chunksOfSucc_append (km1 : ℕ) (b rest : List ℕ) (hb : b.length = km1 + 1) :
    chunksOfSucc km1 (b ++ rest) = b :: chunksOfSucc km1 rest := by
  have hne : b ++ rest ≠ [] := by
    intro hcontra
    have := congrArg List.length hcontra
    simp [hb] at this
  rw [chunksOfSucc_ne km1 _ hne, List.take_left' hb, List.drop_left' hb]

theorem join_chunksOfSucc (km1 : ℕ) (l : List ℕ) : (chunksOfSucc km1 l).flatten = l := by
  have H : ∀ n (l : List ℕ), l.length ≤ n → (chunksOfSucc km1 l).flatten = l := by
    intro n
    induction n with
    | zero =>
        intro l hl
        have : l = [] := List.eq_nil_of_length_eq_zero (Nat.le_zero.mp hl)
        subst this
        simp [chunksOfSucc_nil]
    | succ n ih =>
        intro l hl
        by_cases h : l = []
        · subst h; simp [chunksOfSucc_nil]
        · rw [chunksOfSucc_ne km1 _ h]
          have hpos : 0 < l.length := List.length_pos.mpr h
          have hdrop : (l.drop (km1 + 1)).length ≤ n := by
            simp only [List.length_drop]
            omega
          simp only [List.flatten_cons, ih _ hdrop]
          exact List.take_append_drop _ l
  exact H l.length l (le_refl _)

theorem chunksOfSucc_length_mem (km1 : ℕ) (l : List ℕ) (hdvd : (km1 + 1) ∣ l.length) :
    ∀ b ∈ chunksOfSucc km1 l, b.length = km1 + 1 := by
  have H : ∀ n (l : List ℕ), l.length ≤ n → (km1 + 1) ∣ l.length →
      ∀ b ∈ chunksOfSucc km1 l, b.length = km1 + 1 := by
    intro n
    induction n with
    | zero =>
        intro l hl _ b hb
        have : l = [] := List.eq_nil_of_length_eq_zero (Nat.le_zero.mp hl)
        subst this
        simp [chunksOfSucc_nil] at hb
    | succ n ih =>
        intro l hl hdvd b hb
        by_cases h : l = []
        · subst h; simp [chunksOfSucc_nil] at hb
        · rw [chunksOfSucc_ne km1 _ h] at hb
          have hpos : 0 < l.length := List.length_pos.mpr h
          have hge : km1 + 1 ≤ l.length := by
            rcases hdvd with ⟨c, hc⟩
            rcases Nat.eq_zero_or_pos c with hc0 | hcpos
            · subst hc0; rw [Nat.mul_zero] at hc; omega
            · calc km1 + 1 = (km1 + 1) * 1 := by ring
                _ ≤ (km1 + 1) * c := Nat.mul_le_mul_left _ hcpos
                _ = l.length := hc.symm
          rcases List.mem_cons.mp hb with hb1 | hb2
          · subst hb1
            rw [List.length_take]
            omega
          · have hdrop : (l.drop (km1 + 1)).length ≤ n := by
              simp only [List.length_drop]
              omega
            refine ih _ hdrop ?_ _ hb2
            rcases hdvd with ⟨c, hc⟩
            cases c with
            | zero => rw [Nat.mul_zero] at hc; omega
            | succ m =>
                refine ⟨m, ?_⟩
                simp only [List.length_drop, hc, Nat.mul_succ]
                omega
  exact H l.length l (le_refl _) hdvd

/-! ## SHA-256 (`src/crypto/sha256.rs`)

32-bit words are `Nat` with explicit `% 2 ^ 32` where the source wraps. -/

namespace Sha256

/-- `u32` wrapping addition. -/
def wadd (x y : ℕ) : ℕ := (x + y) % 2 ^ 32

/-- `u32::rotate_right` for a word `x < 2 ^ 32` and rotation `0 < n < 32`. -/
def rotr (x n : ℕ) : ℕ := (x >>> n) ||| ((x <<< (32 - n)) % 2 ^ 32)

/-- `ch(x, y, z) = (x & y) ^ (!x & z)`; `!x` is `u32` complement. -/
def ch (x y z : ℕ) : ℕ := (x &&& y) ^^^ ((x ^^^ 0xffffffff) &&& z)

/-- `maj(x, y, z) = (x & y) ^ (x & z) ^ (y & z)`. -/
def maj (x y z : ℕ) : ℕ := (x &&& y) ^^^ (x &&& z) ^^^ (y &&& z)

def bs0 (x : ℕ) : ℕ := rotr x 2 ^^^ rotr x 13 ^^^ rotr x 22

def bs1 (x : ℕ) : ℕ := rotr x 6 ^^^ rotr x 11 ^^^ rotr x 25

def s0 (x : ℕ) : ℕ := rotr x 7 ^^^ rotr x 18 ^^^ (x >>> 3)

def s1 (x : ℕ) : ℕ := rotr x 17 ^^^ rotr x 19 ^^^ (x >>> 10)

/-- The eight-word running state `[Word; 8]`. -/
structure HState where
  a : ℕ
  b : ℕ
  c : ℕ
  d : ℕ
  e : ℕ
  f : ℕ
  g : ℕ
  h : ℕ
deriving DecidableEq

/-- `START_HASH`. -/
def START_HASH : HState :=
  ⟨0x6A09E667, 0xBB67AE85, 0x3C6EF372, 0xA54FF53A, 0x510E527F, 0x9B05688C, 0x1F83D9AB, 0x5BE0CD19⟩

/-- The 64 round constants `K`. -/
def K : List ℕ :=
  [0x428A2F98, 0x71374491, 0xB5C0FBCF, 0xE9B5DBA5, 0x3956C25B, 0x59F111F1, 0x923F82A4, 0xAB1C5ED5,
   0xD807AA98, 0x12835B01, 0x243185BE, 0x550C7DC3, 0x72BE5D74, 0x80DEB1FE, 0x9BDC06A7, 0xC19BF174,
   0xE49B69C1, 0xEFBE4786, 0x0FC19DC6, 0x240CA1CC, 0x2DE92C6F, 0x4A7484AA, 0x5CB0A9DC, 0x76F988DA,
   0x983E5152, 0xA831C66D, 0xB00327C8, 0xBF597FC7, 0xC6E00BF3, 0xD5A79147, 0x06CA6351, 0x14292967,
   0x27B70A85, 0x2E1B2138, 0x4D2C6DFC, 0x53380D13, 0x650A7354, 0x766A0ABB, 0x81C2C92E, 0x92722C85,
   0xA2BFE8A1, 0xA81A664B, 0xC24B8B70, 0xC76C51A3, 0xD192E819, 0xD6990624, 0xF40E3585, 0x106AA070,
   0x19A4C116, 0x1E376C08, 0x2748774C, 0x34B0BCB5, 0x391C0CB3, 0x4ED8AA4A, 0x5B9CCA4F, 0x682E6FF3,
   0x748F82EE, 0x78A5636F, 0x84C87814, 0x8CC70208, 0x90BEFFFA, 0xA4506CEB, 0xBEF9A3F7, 0xC67178F2]

/-- One message-schedule extension step: with the schedule built so far as
`w` (so `w.length` is the index `t` being filled), append
`s1(w[t-2]) + w[t-7] + s0(w[t-15]) + w[t-16]` with wrapping additions in the
order of the source. -/
def extendSchedule : ℕ → List ℕ → List ℕ
  | 0, w => w
  | n + 1, w =>
      extendSchedule n
        (w ++ [wadd (wadd (wadd (s1 (w.getD (w.length - 2) 0)) (w.getD (w.length - 7) 0))
                          (s0 (w.getD (w.length - 15) 0)))
                    (w.getD (w.length - 16) 0)])

/-- The 64 compression rounds, iterating over the zipped round constants and
schedule words. -/
def rounds : List (ℕ × ℕ) → HState → HState
  | [], st => st
  | (k, w) :: rest, st =>
      let temp1 := wadd (wadd (wadd (wadd st.h (bs1 st.e)) (ch st.e st.f st.g)) k) w
      let temp2 := wadd (bs0 st.a) (maj st.a st.b st.c)
      rounds rest ⟨wadd temp1 temp2, st.a, st.b, st.c, wadd st.d temp1, st.e, st.f, st.g⟩

/-- The per-block wrapping addition of the final working variables into the
running state. -/
def addState (s t : HState) : HState :=
  ⟨wadd s.a t.a, wadd s.b t.b, wadd s.c t.c, wadd s.d t.d,
   wadd s.e t.e, wadd s.f t.f, wadd s.g t.g, wadd s.h t.h⟩

/-- `hash_round`: extend the 16-word block to the 64-word schedule, run the 64
rounds from the current state, and add the result back into the state. -/
def hash_round (block : List ℕ) (st : HState) : HState :=
  addState st (rounds (K.zip (extendSchedule 48 block)) st)

/-- `pad` of `src/crypto/sha256.rs`: append `0x80`, then zero bytes, then the
bit length as a big-endian `u64`. -/
def shaPad (data : List ℕ) : List ℕ :=
  let lastBlockLen := data.length % 64
  let k := (512 + 448 - lastBlockLen * 8 - 1) % 512
  let zeroBytesToAdd := (k + 1) / 8 - 1
  data ++ [0x80] ++ List.replicate zeroBytesToAdd 0 ++ beBytes 8 (data.length * 8 % 2 ^ 64)

/-- `parse_blocks`: split into 64-byte blocks, each read as sixteen 32-bit
big-endian words. -/
def parse_blocks (data : List ℕ) : List (List ℕ) :=
  (chunksOfSucc 63 data).map (fun block => (chunksOfSucc 3 block).map beVal)

/-- Big-endian serialization of the running state: `hash.map(Word::to_be_bytes)`
flattened. -/
def stateBytes (s : HState) : List ℕ :=
  beBytes 4 s.a ++ beBytes 4 s.b ++ beBytes 4 s.c ++ beBytes 4 s.d ++
  beBytes 4 s.e ++ beBytes 4 s.f ++ beBytes 4 s.g ++ beBytes 4 s.h

/-- `hash` of `src/crypto/sha256.rs`. -/
def hash (data : List ℕ) : List ℕ :=
  stateBytes ((parse_blocks (shaPad data)).foldl (fun st block => hash_round block st) START_HASH)

theorem hash_length (data : List ℕ) : (hash data).length = 32 := by
  simp [hash, stateBytes, beBytes_length]

theorem hash_lt (data : List ℕ) : ∀ b ∈ hash data, b < 256 := by
  intro b hb
  simp only [hash, stateBytes, List.mem_append] at hb
  rcases hb with ((((((h | h) | h) | h) | h) | h) | h) | h <;> exact beBytes_lt _ _ _ h

end Sha256

/-! ## HMAC-SHA256 (`src/crypto/hmac.rs`) -/

namespace Hmac

/-- `OPAD`: 64 bytes of `0x5c`. -/
def OPAD : List ℕ := List.replicate 64 0x5c

/-- `IPAD`: 64 bytes of `0x36`. -/
def IPAD : List ℕ := List.replicate 64 0x36

/-- `xor_block` over the 64-byte key block. -/
def xor_block (a b : List ℕ) : List ℕ := List.zipWith (fun x y => x ^^^ y) a b

/-- `hmac(key, message) = H((key ^ opad) || H((key ^ ipad) || message))`. -/
def hmac (key msg : List ℕ) : List ℕ :=
  Sha256.hash (xor_block key OPAD ++ Sha256.hash (xor_block key IPAD ++ msg))

end Hmac

/-! ## `SymmetricKey` (`src/crypto/mod.rs`)

`twofish::KEY_BYTES = 32` and `hmac::KEY_BYTES = 64`. -/

/-- `SymmetricKey(twofish::Key, hmac::Key)`: a 32-byte cipher sub-key and a
64-byte MAC sub-key. -/
structure SymmetricKey where
  cipherKey : List ℕ
  macKey : List ℕ
deriving DecidableEq

/-- The well-formedness the Rust types `[u8; 32]` / `[u8; 64]` impose. -/
def SymmetricKey.WF (k : SymmetricKey) : Prop :=
  k.cipherKey.length = 32 ∧ k.macKey.length = 64 ∧
    (∀ b ∈ k.cipherKey, b < 256) ∧ ∀ b ∈ k.macKey, b < 256

instance (k : SymmetricKey) : Decidable k.WF := by
  unfold SymmetricKey.WF
  infer_instance

/-- `SymmetricKey::to_elgamal_int`: concatenate the two sub-keys (96 bytes),
read them as a big-endian integer, and resize up to 2048 bits (lossless). -/
def SymmetricKey.to_elgamal_int (k : SymmetricKey) : ℕ := beVal (k.cipherKey ++ k.macKey)

/-- `SymmetricKey::from_elgamal_int`: resize the 2048-bit integer down to
96 bytes — `crypto_bigint` truncation keeps the low 768 bits — serialize
big-endian, and split after `twofish::KEY_BYTES = 32` bytes. -/
def SymmetricKey.from_elgamal_int (n : ℕ) : SymmetricKey :=
  ⟨(beBytes 96 (n % 2 ^ 768)).take 32, (beBytes 96 (n % 2 ^ 768)).drop 32⟩

theorem beBytes_96_beVal (c m : List ℕ) (hc : c.length = 32) (hm : m.length = 64)
    (hcb : ∀ b ∈ c, b < 256) (hmb : ∀ b ∈ m, b < 256) :
    beBytes 96 (beVal (c ++ m)) = c ++ m := by
  have hlen : (c ++ m).length = 96 := by simp [hc, hm]
  have hb : ∀ b ∈ c ++ m, b < 256 := by
    intro b hb
    rcases List.mem_append.mp hb with h | h
    · exact hcb b h
    · exact hmb b h
  have := beBytes_beVal (c ++ m) hb
  rwa [hlen] at this

/-- The value of the 96-byte packing is below `2 ^ 768`, so the resize in
`from_elgamal_int` loses nothing. -/
theorem to_elgamal_int_lt (k : SymmetricKey) (hk : k.WF) :
    k.to_elgamal_int < 2 ^ 768 := by
  obtain ⟨hc, hm, hcb, hmb⟩ := hk
  have hlen : (k.cipherKey ++ k.macKey).length = 96 := by simp [hc, hm]
  have hb : ∀ b ∈ k.cipherKey ++ k.macKey, b < 256 := by
    intro b hb
    rcases List.mem_append.mp hb with h | h
    · exact hcb b h
    · exact hmb b h
  have := beVal_lt _ hb
  rw [hlen] at this
  calc beVal (k.cipherKey ++ k.macKey) < 256 ^ 96 := this
    _ = 2 ^ 768 := by norm_num [show (256:ℕ) = 2 ^ 8 from rfl, ← pow_mul]

/-- Round-trip of the group-element packing for well-formed keys. -/
theorem from_to_elgamal_int (k : SymmetricKey) (hk : k.WF) :
    SymmetricKey.from_elgamal_int k.to_elgamal_int = k := by
  obtain ⟨hc, hm, hcb, hmb⟩ := hk
  have hlt := to_elgamal_int_lt k ⟨hc, hm, hcb, hmb⟩
  have hmod : k.to_elgamal_int % 2 ^ 768 = k.to_elgamal_int := Nat.mod_eq_of_lt hlt
  simp only [SymmetricKey.to_elgamal_int] at hmod
  simp only [SymmetricKey.from_elgamal_int, SymmetricKey.to_elgamal_int, hmod]
  rw [beBytes_96_beVal k.cipherKey k.macKey hc hm hcb hmb]
  cases k with
  | mk c m =>
      simp only [SymmetricKey.mk.injEq]
      constructor
      · rw [List.take_left' (by simpa using hc)]
      · rw [List.drop_left' (by simpa using hc)]

/-! ## Authenticated CBC cipher (`src/crypto/mod.rs`)

The Twofish permutation itself is out of the core's scope: `twofish.rs`
leaves `encrypt_block` unimplemented (`todo!()`) and `decrypt_block` is not
in the sources.  Modelled from the spec: §4.6 specifies the block cipher
through its contract only (`encrypt_block(key: 32 bytes, block: 16 bytes) ->
16 bytes`, deterministic, with `decrypt_block` its inverse), so `encrypt`
and `decrypt` below are parametrized by the keyed forward and inverse
permutations `encB`/`decB`, standing for `twofish::encrypt_block(&self.0, ·)`
and `twofish::decrypt_block(&self.0, ·)`.

`decrypt`'s deserialization path indexes slices with ranges
(`data[0..DIGEST_BYTES]`), which panics in Rust when the slice is shorter
than the range; the embedding makes that outcome explicit. -/

/-- Outcome of a Rust function returning `Option<T>` whose body can also
reach a panicking slice index. -/
inductive POption (α : Type) where
  | panicked
  | fail
  | ok (val : α)
deriving DecidableEq

/-- `xor_block` of `src/crypto/mod.rs` over 16-byte blocks. -/
def xor_block16 (a b : List ℕ) : List ℕ := List.zipWith (fun x y => x ^^^ y) a b

/-- `pad` of `src/crypto/mod.rs` (PKCS#7, block size `twofish::BLOCK_BYTES = 16`). -/
def pad (data : List ℕ) : List ℕ :=
  let lastBlockLen := data.length % 16
  let toAdd := 16 - lastBlockLen
  data ++ List.replicate toAdd toAdd

/-- `remove_padding` of `src/crypto/mod.rs`.  The source mutates the vector
and reports success; the embedding returns the truncated vector on success. -/
def remove_padding (data : List ℕ) : Option (List ℕ) :=
  match data.getLast? with
  | none => none
  | some last =>
      if data.length < last then none
      else if (data.reverse.take last).any (fun x => x ≠ last) then none
      else some (data.take (data.length - last))

/-- The CBC encryption loop of `SymmetricKey::encrypt`: the running `xorrer`
starts as the IV and becomes the previous ciphertext block. -/
def cbcEncrypt (encB : List ℕ → List ℕ) : List (List ℕ) → List ℕ → List (List ℕ)
  | [], _ => []
  | block :: rest, xorrer =>
      let c := encB (xor_block16 block xorrer)
      c :: cbcEncrypt encB rest c

/-- The CBC decryption loop of `SymmetricKey::decrypt`. -/
def cbcDecrypt (decB : List ℕ → List ℕ) : List (List ℕ) → List ℕ → List (List ℕ)
  | [], _ => []
  | block :: rest, xorrer =>
      xor_block16 (decB block) xorrer :: cbcDecrypt decB rest block

/-- `CompleteCiphertext`. -/
structure CompleteCiphertext where
  ciphertext : List ℕ
  iv : List ℕ
  mac : List ℕ
deriving DecidableEq

/-- `CompleteCiphertext::serialize`: `mac || iv || ciphertext`. -/
def CompleteCiphertext.serialize (c : CompleteCiphertext) : List ℕ :=
  c.mac ++ c.iv ++ c.ciphertext

/-- `CompleteCiphertext::deserialize`.  The slice expressions
`data[0..DIGEST_BYTES]` and `data[0..BLOCK_BYTES]` panic when the data is too
short; the `try_into().ok()?` conversions that follow can then never fail. -/
def CompleteCiphertext.deserialize (data : List ℕ) : POption CompleteCiphertext :=
  if data.length < 32 then .panicked
  else
    let mac := data.take 32
    let rest := data.drop 32
    if rest.length < 16 then .panicked
    else .ok ⟨rest.drop 16, rest.take 16, mac⟩

/-- `SymmetricKey::encrypt`, with the random 16-byte IV passed explicitly and
the keyed Twofish permutation abstracted as `encB`. -/
def SymmetricKey.encrypt (encB : List ℕ → List ℕ) (k : SymmetricKey) (iv data : List ℕ) :
    List ℕ :=
  let padded := pad data
  let blocks := chunksOfSucc 15 padded
  let ciphertext := (cbcEncrypt encB blocks iv).flatten
  CompleteCiphertext.serialize ⟨ciphertext, iv, Hmac.hmac k.macKey (iv ++ ciphertext)⟩

/-- `SymmetricKey::decrypt`, with the keyed inverse permutation abstracted as
`decB`: deserialize (panicking on short input exactly as the source does),
verify the MAC over `data[DIGEST_BYTES..]`, reject a ciphertext that is not
a whole number of blocks (`bytemuck::try_cast_slice`), CBC-decrypt, and
validate the padding. -/
def SymmetricKey.decrypt (decB : List ℕ → List ℕ) (k : SymmetricKey) (data : List ℕ) :
    POption (List ℕ) :=
  match CompleteCiphertext.deserialize data with
  | .panicked => .panicked
  | .fail => .fail
  | .ok c =>
      let calculatedMac := Hmac.hmac k.macKey (data.drop 32)
      if c.mac ≠ calculatedMac then .fail
      else if ¬ 16 ∣ c.ciphertext.length then .fail
      else
        let blocks := chunksOfSucc 15 c.ciphertext
        let plaintext := (cbcDecrypt decB blocks c.iv).flatten
        match remove_padding plaintext with
        | none => .fail
        | some m => .ok m

/-! ## Wire deserialization of `AlicePub` and `BobEphemeral`

`AlicePub` and `BobEphemeral` only derive `serde::{Serialize, Deserialize}`
(`src/crypto/elgamal.rs`, lines 58 and 67); the byte-level codec lives in the
external `serde`/`bincode`/`crypto_bigint` crates, not in this repository.
Modelled from the spec: §6 fixes the wire form of a group element as the
fixed-width big-endian encoding of the integer, with width the byte-width of
`p` (256 bytes), and an `EphemeralMessage` as the two integers concatenated.
The codec rejects input of the wrong length; it decodes the integer as-is —
no code anywhere in the repository compares a deserialized value against
`P`. -/

/-- Modelled from the spec: deserialization of a serialized `AlicePub` —
a single 2048-bit integer, 256 bytes, fixed-width big-endian. -/
def alicePubDeserialize (data : List ℕ) : Option ℕ :=
  if data.length = 256 ∧ ∀ b ∈ data, b < 256 then some (beVal data) else none

/-- Modelled from the spec: deserialization of a serialized `BobEphemeral` —
two 2048-bit integers, 512 bytes in total, each fixed-width big-endian. -/
def bobEphemeralDeserialize (data : List ℕ) : Option (ℕ × ℕ) :=
  if data.length = 512 ∧ ∀ b ∈ data, b < 256 then
    some (beVal (data.take 256), beVal (data.drop 256))
  else none

/-! ## The ElGamal roles (`src/crypto/elgamal.rs`)

`generate_exponent()` draws uniformly from `[1, Q-1]`; the embedding passes
the drawn exponent explicitly and theorems quantify over every value in that
range.  Likewise `SymmetricKey::generate()` and the random IV. -/

/-- The role `Alice`, holding the secret exponent and its public key. -/
structure Alice where
  secret : ℕ
  publicKey : ℕ

/-- `Alice::generate()` with the drawn secret exponent made explicit:
`public = AlicePub(pow(&G, &secret))`. -/
def Alice.mkFromSecret (a : ℕ) : Alice := ⟨a, ElGamal.pow ElGamal.G a⟩

/-- `Alice::get_public`. -/
def Alice.get_public (al : Alice) : ℕ := al.publicKey

/-- `Alice::extract_shared_secret`: with `eph = (public, enc)` compute
`inv_key = inv_pow(&public, &self.secret)`, `plaintext = mul(&enc, &inv_key)`
and decode. -/
def Alice.extract_shared_secret (al : Alice) (eph : ℕ × ℕ) : SymmetricKey :=
  SymmetricKey.from_elgamal_int (ElGamal.mul eph.2 (ElGamal.inv_pow eph.1 al.secret))

/-- The role `Bob`, holding the session key it will deliver. -/
structure Bob where
  secret : SymmetricKey

/-- `Bob::encrypt_for_alice` with the drawn ephemeral exponent made explicit:
`(pow(&G, &exponent), mul(&pow(alice, &exponent), &self.secret.to_elgamal_int()))`. -/
def Bob.encrypt_for_alice (bob : Bob) (exponent : ℕ) (pk : ℕ) : ℕ × ℕ :=
  (ElGamal.pow ElGamal.G exponent,
   ElGamal.mul (ElGamal.pow pk exponent) bob.secret.to_elgamal_int)

/-- `Bob::extract_shared_secret`: returns the stored session key. -/
def Bob.extract_shared_secret (bob : Bob) : SymmetricKey := bob.secret

/-! ## Lemmas about the cipher components -/

theorem pad_len (M : List ℕ) : (pad M).length = M.length + (16 - M.length % 16) := by
  simp [pad]

theorem pad_dvd (M : List ℕ) : 16 ∣ (pad M).length := by
  rw [pad_len]
  have : M.length % 16 < 16 := Nat.mod_lt _ (by norm_num)
  omega

theorem getLast?_replicate (n x : ℕ) (h : 0 < n) :
    (List.replicate n x).getLast? = some x := by
  obtain ⟨m, rfl⟩ : ∃ m, n = m + 1 := ⟨n - 1, by omega⟩
  rw [List.replicate_succ', List.getLast?_concat]

theorem any_ne_replicate (n x : ℕ) :
    (List.replicate n x).any (fun y => y ≠ x) = false := by
  induction n with
  | zero => rfl
  | succ m ih => simp [List.replicate_succ, ih]

theorem remove_padding_some (data : List ℕ) (last : ℕ) (h : data.getLast? = some last) :
    remove_padding data
      = if data.length < last then none
        else if (data.reverse.take last).any (fun x => x ≠ last) then none
        else some (data.take (data.length - last)) := by
  rw [remove_padding, h]

/-- PKCS#7 padding round-trip: `remove_padding` undoes `pad`. -/
theorem remove_padding_pad (M : List ℕ) : remove_padding (pad M) = some M := by
  have hmod : M.length % 16 < 16 := Nat.mod_lt _ (by norm_num)
  set N := 16 - M.length % 16 with hN
  have hN1 : 1 ≤ N := by omega
  have hN16 : N ≤ 16 := by omega
  have hpad : pad M = M ++ List.replicate N N := rfl
  have hlast : (pad M).getLast? = some N := by
    rw [hpad, List.getLast?_append, getLast?_replicate N N (by omega)]
    rfl
  have hlen : (pad M).length = M.length + N := by
    rw [hpad]; simp
  rw [remove_padding_some _ _ hlast]
  rw [if_neg (by omega)]
  have hrev : (pad M).reverse.take N = List.replicate N N := by
    rw [hpad, List.reverse_append, List.reverse_replicate]
    exact List.take_left' (by simp)
  rw [hrev, if_neg (by simp [any_ne_replicate])]
  rw [hlen, hpad, Nat.add_sub_cancel]
  rw [List.take_left]

theorem xor_block16_length (a b : List ℕ) :
    (xor_block16 a b).length = min a.length b.length := by
  simp [xor_block16]

theorem xor_block16_cancel : ∀ a b : List ℕ, a.length = b.length →
    xor_block16 (xor_block16 a b) b = a := by
  intro a
  induction a with
  | nil => intro b h; cases b <;> rfl
  | cons x xs ih =>
      intro b h
      cases b with
      | nil => simp at h
      | cons y ys =>
          simp only [xor_block16, List.zipWith_cons_cons]
          have hx : (x ^^^ y) ^^^ y = x := by
            rw [Nat.xor_assoc, Nat.xor_self, Nat.xor_zero]
          rw [hx]
          have := ih ys (by simpa using h)
          simp only [xor_block16] at this
          rw [this]

theorem cbcEncrypt_mem_length (encB : List ℕ → List ℕ)
    (hlen : ∀ bl : List ℕ, bl.length = 16 → (encB bl).length = 16) :
    ∀ (blocks : List (List ℕ)) (xorrer : List ℕ),
      (∀ bl ∈ blocks, bl.length = 16) → xorrer.length = 16 →
      ∀ c ∈ cbcEncrypt encB blocks xorrer, c.length = 16 := by
  intro blocks
  induction blocks with
  | nil => intro xorrer _ _ c hc; simp [cbcEncrypt] at hc
  | cons bl rest ih =>
      intro xorrer hbl hx c hc
      have hhead : bl.length = 16 := hbl bl (List.mem_cons_self _ _)
      have hxl : (xor_block16 bl xorrer).length = 16 := by
        simp [xor_block16_length, hhead, hx]
      have henc : (encB (xor_block16 bl xorrer)).length = 16 := hlen _ hxl
      simp only [cbcEncrypt, List.mem_cons] at hc
      rcases hc with hc | hc
      · subst hc; exact henc
      · exact ih _ (fun b hb => hbl b (List.mem_cons_of_mem _ hb)) henc c hc

/-- The CBC decryption loop inverts the encryption loop, given the block
cipher contract. -/
theorem cbc_roundtrip (encB decB : List ℕ → List ℕ)
    (hlen : ∀ bl : List ℕ, bl.length = 16 → (encB bl).length = 16)
    (hinv : ∀ bl : List ℕ, bl.length = 16 → decB (encB bl) = bl) :
    ∀ (blocks : List (List ℕ)) (xorrer : List ℕ),
      (∀ bl ∈ blocks, bl.length = 16) → xorrer.length = 16 →
      cbcDecrypt decB (cbcEncrypt encB blocks xorrer) xorrer = blocks := by
  intro blocks
  induction blocks with
  | nil => intro xorrer _ _; rfl
  | cons bl rest ih =>
      intro xorrer hbl hx
      have hhead : bl.length = 16 := hbl bl (List.mem_cons_self _ _)
      have hxl : (xor_block16 bl xorrer).length = 16 := by
        simp [xor_block16_length, hhead, hx]
      simp only [cbcEncrypt, cbcDecrypt]
      rw [hinv _ hxl]
      rw [xor_block16_cancel bl xorrer (by omega)]
      rw [ih _ (fun b hb => hbl b (List.mem_cons_of_mem _ hb)) (hlen _ hxl)]

/-- Re-chunking the flattened ciphertext recovers the blocks. -/
theorem chunks_flatten_16 :
    ∀ ls : List (List ℕ), (∀ c ∈ ls, c.length = 16) →
      chunksOfSucc 15 ls.flatten = ls := by
  intro ls
  induction ls with
  | nil => intro _; rfl
  | cons c rest ih =>
      intro h
      have hc : c.length = 16 := h c (List.mem_cons_self _ _)
      simp only [List.flatten_cons]
      rw [chunksOfSucc_append 15 c rest.flatten (by omega)]
      rw [ih (fun b hb => h b (List.mem_cons_of_mem _ hb))]

/-- `deserialize` undoes `serialize` for records with the right field widths. -/
theorem deserialize_serialize (c : CompleteCiphertext)
    (hm : c.mac.length = 32) (hi : c.iv.length = 16) :
    CompleteCiphertext.deserialize c.serialize = .ok c := by
  have hser : c.serialize = c.mac ++ (c.iv ++ c.ciphertext) := by
    rw [CompleteCiphertext.serialize, List.append_assoc]
  rw [CompleteCiphertext.deserialize, hser]
  rw [if_neg (by simp only [List.length_append, hm]; omega)]
  simp only [List.take_left' hm, List.drop_left' hm]
  rw [if_neg (by simp only [List.length_append, hi]; omega)]
  simp only [List.take_left' hi, List.drop_left' hi]

/-! ## The claims -/

/-- C5: for every base and exponent representable as 2048-bit unsigned
integers, `pow(base, exponent)` equals `base ^ exponent mod P`, and `mul`
reduces the double-width intermediate product — which stays below `2 ^ 4096`,
so no overflow occurs — modulo `P`. -/
theorem C5_pow_computes_modular_exponentiation (base exp : ℕ)
    (hbase : base < 2 ^ 2048) (hexp : exp < 2 ^ 2048) :
    ElGamal.pow base exp = base ^ exp % ElGamal.P ∧
      (∀ lhs rhs : ℕ, lhs < 2 ^ 2048 → rhs < 2 ^ 2048 →
        lhs * rhs < 2 ^ 4096 ∧ ElGamal.mul lhs rhs = lhs * rhs % ElGamal.P) := by
  refine ⟨ElGamal.pow_eq base exp hexp, ?_⟩
  intro lhs rhs hl hr
  constructor
  · calc lhs * rhs < 2 ^ 2048 * 2 ^ 2048 := Nat.mul_lt_mul_of_lt_of_lt hl hr
      _ = 2 ^ 4096 := by norm_num
  · rfl

theorem C5_witness :
    (2 : ℕ) < 2 ^ 2048 ∧ (3 : ℕ) < 2 ^ 2048 ∧
      ElGamal.pow 2 3 = 2 ^ 3 % ElGamal.P :=
  ⟨by norm_num, by norm_num,
    (C5_pow_computes_modular_exponentiation 2 3 (by norm_num) (by norm_num)).1⟩

/-- C6: the ladder's operation sequence is independent of the exponent (and
of the base): it always performs, for each of the 2048 bit positions, the
unconditional multiply, the branchless conditional assignment, and the
unconditional squaring, with no early exit — any two exponents induce the
identical operation trace, and the traced computation returns exactly
`pow`. -/
theorem C6_pow_trace_independent_of_exponent (base base2 exp exp2 : ℕ) :
    (ElGamal.powT base exp).2 = (ElGamal.powT base2 exp2).2 ∧
      (ElGamal.powT base exp).1 = ElGamal.pow base exp ∧
      (ElGamal.powT base exp).2.length = 3 * 2048 :=
  ⟨ElGamal.powLoopT_snd exp 2048 0 1 base exp2 0 1 base2,
   ElGamal.powLoopT_fst exp 2048 0 1 base,
   ElGamal.powLoopT_snd_length exp 2048 0 1 base⟩

/-- C7: `hash` applied to the three-byte message `"abc"` returns exactly the
published SHA-256 test vector. -/
theorem C7_sha256_abc :
    Sha256.hash [0x61, 0x62, 0x63]
      = [0xba, 0x78, 0x16, 0xbf, 0x8f, 0x01, 0xcf, 0xea,
         0x41, 0x41, 0x40, 0xde, 0x5d, 0xae, 0x22, 0x23,
         0xb0, 0x03, 0x61, 0xa3, 0x96, 0x17, 0x7a, 0x9c,
         0xb4, 0x10, 0xff, 0x61, 0xf2, 0x00, 0x15, 0xad] := by
  decide

/-- C9: the PKCS#7 pad length `N = 16 - (len mod 16)` is in `1..=16`; the
padded length is `len + N`, always a positive multiple of 16; and a plaintext
already a multiple of 16 bytes long receives a full extra 16-byte block. -/
theorem C9_pad_always_pads (M : List ℕ) :
    1 ≤ 16 - M.length % 16 ∧ 16 - M.length % 16 ≤ 16 ∧
      (pad M).length = M.length + (16 - M.length % 16) ∧
      (pad M).length % 16 = 0 ∧ 0 < (pad M).length ∧
      (M.length % 16 = 0 → (pad M).length = M.length + 16) := by
  have hmod : M.length % 16 < 16 := Nat.mod_lt _ (by norm_num)
  have hlen := pad_len M
  refine ⟨by omega, by omega, hlen, by omega, by omega, fun h => by omega⟩

theorem C9_witness :
    (List.replicate 16 (0 : ℕ)).length % 16 = 0 ∧
      (pad (List.replicate 16 (0 : ℕ))).length = (List.replicate 16 (0 : ℕ)).length + 16 :=
  ⟨by decide, (C9_pad_always_pads (List.replicate 16 0)).2.2.2.2.2 (by decide)⟩

/-- C10: for every well-formed `SymmetricKey` the group-element encoding
round-trips, because the 96 bytes of key material always encode as an
integer strictly below `2 ^ 768`, hence below `P`. -/
theorem C10_symmetric_key_embedding_roundtrip (k : SymmetricKey) (hk : k.WF) :
    SymmetricKey.from_elgamal_int k.to_elgamal_int = k ∧
      k.to_elgamal_int < 2 ^ 768 ∧ k.to_elgamal_int < ElGamal.P := by
  have h768 : (2 : ℕ) ^ 768 < ElGamal.P := by decide
  have hlt := to_elgamal_int_lt k hk
  exact ⟨from_to_elgamal_int k hk, hlt, lt_trans hlt h768⟩

theorem C10_witness :
    (SymmetricKey.mk (List.replicate 32 0) (List.replicate 64 0)).WF ∧
      SymmetricKey.from_elgamal_int
          (SymmetricKey.mk (List.replicate 32 0) (List.replicate 64 0)).to_elgamal_int
        = SymmetricKey.mk (List.replicate 32 0) (List.replicate 64 0) :=
  ⟨by decide,
   (C10_symmetric_key_embedding_roundtrip _ (by decide)).1⟩

/-- C2 (code behavior at the failing input): `SymmetricKey::decrypt` does
not return a typed failure on short input — the slice expression
`data[0..DIGEST_BYTES]` in `CompleteCiphertext::deserialize` panics whenever
the input is shorter than the 48 bytes of MAC-plus-IV header, for every key
and every inverse permutation. -/
theorem C2_decrypt_panics_on_short_input (decB : List ℕ → List ℕ)
    (k : SymmetricKey) (data : List ℕ) (h : data.length < 48) :
    SymmetricKey.decrypt decB k data = .panicked := by
  rw [SymmetricKey.decrypt, CompleteCiphertext.deserialize]
  by_cases h32 : data.length < 32
  · rw [if_pos h32]
  · rw [if_neg h32, if_pos (by simp only [List.length_drop]; omega)]

theorem C2_witness :
    ([] : List ℕ).length < 48 ∧
      SymmetricKey.decrypt (fun bl => bl) (SymmetricKey.mk [] []) [] = .panicked :=
  ⟨by decide, C2_decrypt_panics_on_short_input _ _ _ (by decide)⟩

/-- C3 (code behavior at the failing input): the padding check of
`remove_padding` does not restrict the last byte to `1..=16`.  A decrypted
padded plaintext whose last byte is `0` is accepted unchanged, one whose
last byte is `17` (with 17 matching trailing bytes) is accepted with 17
bytes stripped, and a full `decrypt` run whose MAC verifies and whose CBC
decryption ends in a `0` byte returns a successful plaintext instead of the
opaque failure. -/
theorem C3_padding_check_accepts_zero_and_large :
    remove_padding (List.replicate 16 0) = some (List.replicate 16 0) ∧
      remove_padding (List.replicate 15 1 ++ List.replicate 17 17)
        = some (List.replicate 15 1) ∧
      SymmetricKey.decrypt (fun _ => List.replicate 16 0)
          (SymmetricKey.mk (List.replicate 32 0) (List.replicate 64 0))
          (Hmac.hmac (List.replicate 64 0) (List.replicate 32 0) ++ List.replicate 32 0)
        = .ok (List.replicate 16 0) := by
  decide

/-- C4 counterexample: the 256-byte big-endian encoding of `P` itself — an
out-of-range value, since a valid group element is strictly below `P` —
deserializes successfully into a constructed `AlicePub` (and the analogous
512-byte input into a `BobEphemeral`) instead of failing. -/
theorem C4_out_of_range_accepted :
    alicePubDeserialize (beBytes 256 ElGamal.P) = some ElGamal.P ∧
      bobEphemeralDeserialize (beBytes 256 ElGamal.P ++ beBytes 256 ElGamal.P)
        = some (ElGamal.P, ElGamal.P) := by
  decide

/-- C4 (amended): wrong-length serialized `AlicePub`/`BobEphemeral` input
yields a deserialization failure reported to the caller; but no range check
against `P` exists — any integer of the right width, in range or not,
deserializes successfully. -/
theorem C4_wrong_length_rejected_no_range_check (data : List ℕ) :
    (data.length ≠ 256 → alicePubDeserialize data = none) ∧
      (data.length ≠ 512 → bobEphemeralDeserialize data = none) ∧
      ((data.length = 256 ∧ ∀ b ∈ data, b < 256) →
        alicePubDeserialize data = some (beVal data)) ∧
      ((data.length = 512 ∧ ∀ b ∈ data, b < 256) →
        bobEphemeralDeserialize data = some (beVal (data.take 256), beVal (data.drop 256))) := by
  refine ⟨?_, ?_, ?_, ?_⟩ <;> intro h
  · rw [alicePubDeserialize, if_neg (fun hc => h hc.1)]
  · rw [bobEphemeralDeserialize, if_neg (fun hc => h hc.1)]
  · rw [alicePubDeserialize, if_pos h]
  · rw [bobEphemeralDeserialize, if_pos h]

theorem C4_witness :
    alicePubDeserialize [] = none ∧ bobEphemeralDeserialize [] = none :=
  ⟨(C4_wrong_length_rejected_no_range_check []).1 (by decide),
   (C4_wrong_length_rejected_no_range_check []).2.1 (by decide)⟩

theorem hmac_length (key msg : List ℕ) : (Hmac.hmac key msg).length = 32 :=
  Sha256.hash_length _

theorem flatten_16_dvd :
    ∀ ls : List (List ℕ), (∀ c ∈ ls, c.length = 16) → 16 ∣ ls.flatten.length := by
  intro ls
  induction ls with
  | nil => intro _; simp
  | cons c rest ih =>
      intro h
      have hc : c.length = 16 := h c (List.mem_cons_self _ _)
      simp only [List.flatten_cons, List.length_append, hc]
      rcases ih (fun b hb => h b (List.mem_cons_of_mem _ hb)) with ⟨m, hm⟩
      exact ⟨1 + m, by omega⟩

/-- `decrypt` on a serialized record whose MAC is the correct HMAC of
`iv || ciphertext` and whose ciphertext is block-aligned reaches the CBC
decryption and padding validation. -/
theorem decrypt_serialize_ok (decB : List ℕ → List ℕ) (k : SymmetricKey)
    (c : CompleteCiphertext)
    (hm : c.mac = Hmac.hmac k.macKey (c.iv ++ c.ciphertext))
    (hmac32 : c.mac.length = 32) (hiv : c.iv.length = 16)
    (hdvd : 16 ∣ c.ciphertext.length) :
    SymmetricKey.decrypt decB k c.serialize
      = match remove_padding ((cbcDecrypt decB (chunksOfSucc 15 c.ciphertext) c.iv).flatten) with
        | none => .fail
        | some m => .ok m := by
  have hdes := deserialize_serialize c hmac32 hiv
  have hdrop : c.serialize.drop 32 = c.iv ++ c.ciphertext := by
    rw [CompleteCiphertext.serialize, List.append_assoc, List.drop_left' hmac32]
  rw [SymmetricKey.decrypt, hdes]
  show (if c.mac ≠ Hmac.hmac k.macKey (c.serialize.drop 32) then POption.fail
        else if ¬ (16 ∣ c.ciphertext.length) then POption.fail
        else match remove_padding ((cbcDecrypt decB (chunksOfSucc 15 c.ciphertext) c.iv).flatten) with
             | none => POption.fail
             | some m => POption.ok m) = _
  rw [hdrop, if_neg (by simp [hm]), if_neg (not_not_intro hdvd)]

/-- C8: for every key, IV, and byte string `M` — empty or spanning several
blocks — `decrypt` inverts `encrypt`, assuming the block cipher satisfies
its contract: the keyed permutation preserves the 16-byte block width and
`decrypt_block` inverts `encrypt_block`. -/
theorem C8_decrypt_inverts_encrypt (encB decB : List ℕ → List ℕ) (k : SymmetricKey)
    (iv M : List ℕ)
    (hencLen : ∀ bl : List ℕ, bl.length = 16 → (encB bl).length = 16)
    (hdec : ∀ bl : List ℕ, bl.length = 16 → decB (encB bl) = bl)
    (hiv : iv.length = 16) :
    SymmetricKey.decrypt decB k (SymmetricKey.encrypt encB k iv M) = .ok M := by
  have hbl : ∀ bl ∈ chunksOfSucc 15 (pad M), bl.length = 16 :=
    chunksOfSucc_length_mem 15 (pad M) (pad_dvd M)
  have hctl : ∀ cb ∈ cbcEncrypt encB (chunksOfSucc 15 (pad M)) iv, cb.length = 16 :=
    cbcEncrypt_mem_length encB hencLen _ iv hbl hiv
  have hdvd : 16 ∣ (cbcEncrypt encB (chunksOfSucc 15 (pad M)) iv).flatten.length :=
    flatten_16_dvd _ hctl
  have henc : SymmetricKey.encrypt encB k iv M
      = CompleteCiphertext.serialize
          ⟨(cbcEncrypt encB (chunksOfSucc 15 (pad M)) iv).flatten, iv,
            Hmac.hmac k.macKey
              (iv ++ (cbcEncrypt encB (chunksOfSucc 15 (pad M)) iv).flatten)⟩ := rfl
  rw [henc, decrypt_serialize_ok decB k _ rfl (hmac_length _ _) hiv hdvd]
  rw [chunks_flatten_16 _ hctl]
  rw [cbc_roundtrip encB decB hencLen hdec _ iv hbl hiv]
  rw [join_chunksOfSucc 15 (pad M)]
  rw [remove_padding_pad M]

theorem C8_witness :
    (List.replicate 16 (0 : ℕ)).length = 16 ∧
      SymmetricKey.decrypt (fun bl => bl)
          (SymmetricKey.mk (List.replicate 32 0) (List.replicate 64 0))
          (SymmetricKey.encrypt (fun bl => bl)
            (SymmetricKey.mk (List.replicate 32 0) (List.replicate 64 0))
            (List.replicate 16 0) [])
        = .ok [] :=
  ⟨by decide,
   C8_decrypt_inverts_encrypt (fun bl => bl) (fun bl => bl) _ _ _
     (fun _ h => h) (fun _ _ => rfl) (by decide)⟩

theorem two_pow_768_lt_P : (2 : ℕ) ^ 768 < ElGamal.P := by decide

/-- C1: for every Alice secret exponent `a` in `[1, Q-1]`, every ephemeral
exponent `b` in `[1, Q-1]` drawn by Bob, and every well-formed session key
`K`, Alice recovers exactly Bob's key:
`alice.extract_shared_secret(bob.encrypt_for_alice(alice.get_public())) =
bob.extract_shared_secret()`. -/
theorem C1_exchange_correctness (a b : ℕ) (K : SymmetricKey)
    (ha1 : 1 ≤ a) (ha2 : a ≤ ElGamal.Q - 1)
    (hb1 : 1 ≤ b) (hb2 : b ≤ ElGamal.Q - 1)
    (hK : K.WF) :
    (Alice.mkFromSecret a).extract_shared_secret
        ((Bob.mk K).encrypt_for_alice b (Alice.mkFromSecret a).get_public)
      = (Bob.mk K).extract_shared_secret := by
  have h2048Q := ElGamal.Q_lt_two_pow
  have haQ : a ≤ ElGamal.Q := le_trans ha2 (Nat.sub_le _ _)
  have ha2048 : a < 2 ^ 2048 := lt_of_le_of_lt haQ h2048Q
  have hb2048 : b < 2 ^ 2048 := lt_of_le_of_lt (le_trans hb2 (Nat.sub_le _ _)) h2048Q
  have hQa2048 : ElGamal.Q - a < 2 ^ 2048 := lt_of_le_of_lt (Nat.sub_le _ _) h2048Q
  have hA : ElGamal.pow ElGamal.G a ≡ ElGamal.G ^ a [MOD ElGamal.P] := by
    rw [ElGamal.pow_eq _ _ ha2048]; exact Nat.mod_modEq _ _
  have hB : ElGamal.pow ElGamal.G b ≡ ElGamal.G ^ b [MOD ElGamal.P] := by
    rw [ElGamal.pow_eq _ _ hb2048]; exact Nat.mod_modEq _ _
  have hAb : ElGamal.pow (ElGamal.pow ElGamal.G a) b
      ≡ ElGamal.G ^ (a * b) [MOD ElGamal.P] := by
    rw [ElGamal.pow_eq _ _ hb2048]
    calc (ElGamal.pow ElGamal.G a) ^ b % ElGamal.P
        ≡ (ElGamal.pow ElGamal.G a) ^ b [MOD ElGamal.P] := Nat.mod_modEq _ _
      _ ≡ (ElGamal.G ^ a) ^ b [MOD ElGamal.P] := hA.pow b
      _ = ElGamal.G ^ (a * b) := (pow_mul _ _ _).symm
  have hBQa : ElGamal.pow (ElGamal.pow ElGamal.G b) (ElGamal.Q - a)
      ≡ ElGamal.G ^ (b * (ElGamal.Q - a)) [MOD ElGamal.P] := by
    rw [ElGamal.pow_eq _ _ hQa2048]
    calc (ElGamal.pow ElGamal.G b) ^ (ElGamal.Q - a) % ElGamal.P
        ≡ (ElGamal.pow ElGamal.G b) ^ (ElGamal.Q - a) [MOD ElGamal.P] := Nat.mod_modEq _ _
      _ ≡ (ElGamal.G ^ b) ^ (ElGamal.Q - a) [MOD ElGamal.P] := hB.pow _
      _ = ElGamal.G ^ (b * (ElGamal.Q - a)) := (pow_mul _ _ _).symm
  have hGQ : ElGamal.G ^ ElGamal.Q ≡ 1 [MOD ElGamal.P] := by
    show ElGamal.G ^ ElGamal.Q % ElGamal.P = 1 % ElGamal.P
    rw [ElGamal.G_pow_Q_mod_P, Nat.mod_eq_of_lt ElGamal.one_lt_P]
  obtain ⟨d, hd⟩ := Nat.exists_eq_add_of_le haQ
  have hQd : ElGamal.Q - a = d := by omega
  have hexp : a * b + b * (ElGamal.Q - a) = ElGamal.Q * b := by
    rw [hQd, hd]; ring
  have hfull : ElGamal.mul
      (ElGamal.mul (ElGamal.pow (ElGamal.pow ElGamal.G a) b) K.to_elgamal_int)
      (ElGamal.pow (ElGamal.pow ElGamal.G b) (ElGamal.Q - a))
      ≡ K.to_elgamal_int [MOD ElGamal.P] := by
    have hC : ElGamal.mul (ElGamal.pow (ElGamal.pow ElGamal.G a) b) K.to_elgamal_int
        ≡ ElGamal.G ^ (a * b) * K.to_elgamal_int [MOD ElGamal.P] :=
      (Nat.mod_modEq _ _).trans (hAb.mul (Nat.ModEq.refl _))
    calc ElGamal.mul
          (ElGamal.mul (ElGamal.pow (ElGamal.pow ElGamal.G a) b) K.to_elgamal_int)
          (ElGamal.pow (ElGamal.pow ElGamal.G b) (ElGamal.Q - a))
        ≡ ElGamal.mul (ElGamal.pow (ElGamal.pow ElGamal.G a) b) K.to_elgamal_int
            * ElGamal.pow (ElGamal.pow ElGamal.G b) (ElGamal.Q - a) [MOD ElGamal.P] :=
          Nat.mod_modEq _ _
      _ ≡ (ElGamal.G ^ (a * b) * K.to_elgamal_int)
            * ElGamal.G ^ (b * (ElGamal.Q - a)) [MOD ElGamal.P] := hC.mul hBQa
      _ = K.to_elgamal_int * (ElGamal.G ^ ElGamal.Q) ^ b := by
          rw [mul_comm (ElGamal.G ^ (a * b)) K.to_elgamal_int, mul_assoc,
              ← pow_add, hexp, pow_mul]
      _ ≡ K.to_elgamal_int * 1 ^ b [MOD ElGamal.P] := (hGQ.pow b).mul_left _
      _ = K.to_elgamal_int := by rw [one_pow, mul_one]
  have hlt : ElGamal.mul
      (ElGamal.mul (ElGamal.pow (ElGamal.pow ElGamal.G a) b) K.to_elgamal_int)
      (ElGamal.pow (ElGamal.pow ElGamal.G b) (ElGamal.Q - a)) < ElGamal.P :=
    ElGamal.mul_lt _ _
  have hmP : K.to_elgamal_int < ElGamal.P :=
    lt_trans (to_elgamal_int_lt K hK) two_pow_768_lt_P
  have heq : ElGamal.mul
      (ElGamal.mul (ElGamal.pow (ElGamal.pow ElGamal.G a) b) K.to_elgamal_int)
      (ElGamal.pow (ElGamal.pow ElGamal.G b) (ElGamal.Q - a)) = K.to_elgamal_int := by
    have h := hfull
    rwa [Nat.ModEq, Nat.mod_eq_of_lt hlt, Nat.mod_eq_of_lt hmP] at h
  show SymmetricKey.from_elgamal_int
      (ElGamal.mul
        (ElGamal.mul (ElGamal.pow (ElGamal.pow ElGamal.G a) b) K.to_elgamal_int)
        (ElGamal.pow (ElGamal.pow ElGamal.G b) (ElGamal.Q - a))) = K
  rw [heq]
  exact from_to_elgamal_int K hK

theorem C1_witness :
    ((1 : ℕ) ≤ ElGamal.Q - 1 ∧
        (SymmetricKey.mk (List.replicate 32 0) (List.replicate 64 0)).WF) ∧
      (Alice.mkFromSecret 1).extract_shared_secret
          ((Bob.mk (SymmetricKey.mk (List.replicate 32 0) (List.replicate 64 0))).encrypt_for_alice
            1 (Alice.mkFromSecret 1).get_public)
        = (Bob.mk (SymmetricKey.mk (List.replicate 32 0) (List.replicate 64 0))).extract_shared_secret :=
  ⟨⟨by decide, by decide⟩,
   C1_exchange_correctness 1 1 _ (le_refl 1) (by decide) (le_refl 1) (by decide) (by decide)⟩

end TitaniumRose
